import Mathlib

/-!
Verification of the natural-language specification of `ipynb_to_py.py`
(notebook-to-script converter) against a shallow embedding of its code.

The embedding follows the source file `src/ipynb_to_py.py`:
  * `remove_unused_variables` (pruning pass over the `ast` tree),
  * `format_code` (minimal line-based formatter),
  * `format_with_black` (external-formatter stage),
  * `convert_ipynb_to_py` (the whole pipeline).

Python's `ast` syntax trees are modelled by the mutually inductive
`Expr`/`Stmt` types below; `ast.walk`-based name collection, the top-level
statement rebuild, and the line-based formatter are translated function by
function.  External collaborators (the `ast` parser, `astunparse`, the
`black` subprocess, the filesystem) are modelled by explicit outcome data
(`ParseOutcome`, `BlackEnv`, the `Option` input of `convert_ipynb_to_py`),
so that every exception path of the Python code corresponds to a branch of
a total Lean function.
-/

namespace IpynbToPy

/-- Expression context of a Python `ast.Name` node (`ast.Load` / `ast.Store`). -/
inductive Ctx
  | load
  | store
deriving DecidableEq, Repr

mutual

/-- Python expression nodes, as produced by `ast.parse`.  `name` carries its
context (`ast.Load` for a read, `ast.Store` for a binding occurrence);
`attrOf` models `obj.attr` (an `ast.Attribute` node) (whose `value` sub-expression is in load
context even when the attribute itself is an assignment target);
`binOp` stands for any binary operation. -/
inductive Expr
  | name (id : String) (ctx : Ctx)
  | intConst (n : Int)
  | strConst (s : String)
  | binOp (l r : Expr)
  | attrOf (value : Expr) (attr : String) (ctx : Ctx)
  | call (f : Expr) (args : ExprList)
  | tuple (elts : ExprList) (ctx : Ctx)
deriving DecidableEq, Repr

/-- Lists of expressions in recursive positions (call arguments, tuple
elements), kept as a separate inductive so that recursion over `Expr`
stays structural. -/
inductive ExprList
  | nil
  | cons (e : Expr) (es : ExprList)
deriving DecidableEq, Repr

end

mutual

/-- Python statement nodes, as produced by `ast.parse`: `assign` is
`ast.Assign` (targets, value, optional type comment), `forIn` is `ast.For`,
`functionDef` is `ast.FunctionDef` (name, positional argument names, body),
`classDef` is `ast.ClassDef`, `ifStmt` is `ast.If`, `exprStmt` is
`ast.Expr`, `passStmt` is `ast.Pass`.  Assignment targets are a plain
`List Expr` (the `Expr` type is already complete there); statement bodies
use `StmtList` to keep recursion structural. -/
inductive Stmt
  | assign (targets : List Expr) (value : Expr) (typeComment : Option String)
  | forIn (target : Expr) (iter : Expr) (body : StmtList) (orelse : StmtList)
  | functionDef (name : String) (args : List String) (body : StmtList)
  | classDef (name : String) (body : StmtList)
  | ifStmt (test : Expr) (body : StmtList) (orelse : StmtList)
  | exprStmt (e : Expr)
  | passStmt
deriving DecidableEq, Repr

/-- Lists of statements in recursive positions (loop, function, class and
branch bodies). -/
inductive StmtList
  | nil
  | cons (s : Stmt) (ss : StmtList)
deriving DecidableEq, Repr

end

mutual

/-- Names occurring in an expression in load context.  Together with
`usedStmt` this models the first `ast.walk(tree)` loop of
`remove_unused_variables`, which adds `node.id` to `used_vars` for every
`ast.Name` node whose `ctx` is `ast.Load`, wherever it occurs. -/
def usedExpr : Expr → List String
  | .name id ctx => if ctx = .load then [id] else []
  | .intConst _ => []
  | .strConst _ => []
  | .binOp l r => usedExpr l ++ usedExpr r
  | .attrOf v _ _ => usedExpr v
  | .call f args => usedExpr f ++ usedExprList args
  | .tuple elts _ => usedExprList elts

/-- Load-context names of every expression of an `ExprList`. -/
def usedExprList : ExprList → List String
  | .nil => []
  | .cons e es => usedExpr e ++ usedExprList es

end

mutual

/-- Load-context names occurring anywhere in a statement, nested scopes
included, exactly as `ast.walk` reaches every node of the subtree. -/
def usedStmt : Stmt → List String
  | .assign tgts v _ => (tgts.map usedExpr).flatten ++ usedExpr v
  | .forIn tgt iter body orelse =>
      usedExpr tgt ++ usedExpr iter ++ usedStmtList body ++ usedStmtList orelse
  | .functionDef _ _ body => usedStmtList body
  | .classDef _ body => usedStmtList body
  | .ifStmt test body orelse => usedExpr test ++ usedStmtList body ++ usedStmtList orelse
  | .exprStmt e => usedExpr e
  | .passStmt => []

/-- Load-context names of every statement of a `StmtList`. -/
def usedStmtList : StmtList → List String
  | .nil => []
  | .cons s ss => usedStmt s ++ usedStmtList ss

end

/-- The `used_vars` set of `remove_unused_variables`: every name occurring
in load context anywhere in the tree (`for node in ast.walk(tree): if
isinstance(node, ast.Name) and isinstance(node.ctx, ast.Load)`).
Represented as a list; only membership matters. -/
def usedStmts (tree : List Stmt) : List String := (tree.map usedStmt).flatten

/-- The identifier of an `ast.Name` node, `none` for any other node
(mirrors the `isinstance(target, ast.Name)` tests of the source). -/
def nameId : Expr → Option String
  | .name id _ => some id
  | _ => none

mutual

/-- Names contributed to `defined_vars` by one statement and all of its
descendants: `ast.walk` visits every node, and the second collection loop
of `remove_unused_variables` adds, per node, the `ast.Name` targets of an
`ast.Assign`, the target of an `ast.For` when it is an `ast.Name`, the
name and argument names of an `ast.FunctionDef`, and the name of an
`ast.ClassDef`. -/
def definedStmt : Stmt → List String
  | .assign tgts _ _ => tgts.filterMap nameId
  | .forIn tgt _ body orelse =>
      (match tgt with | .name id _ => [id] | _ => []) ++
        definedStmtList body ++ definedStmtList orelse
  | .functionDef n args body => n :: (args ++ definedStmtList body)
  | .classDef n body => n :: definedStmtList body
  | .ifStmt _ body orelse => definedStmtList body ++ definedStmtList orelse
  | .exprStmt _ => []
  | .passStmt => []

/-- Names contributed to `defined_vars` by every statement of a `StmtList`. -/
def definedStmtList : StmtList → List String
  | .nil => []
  | .cons s ss => definedStmt s ++ definedStmtList ss

end

/-- The `defined_vars` set of `remove_unused_variables`, collected by the
second `ast.walk(tree)` loop. -/
def definedStmts (tree : List Stmt) : List String := (tree.map definedStmt).flatten

/-- The set difference `unused_vars = defined_vars - used_vars`. -/
def unusedVars (tree : List Stmt) : List String :=
  (definedStmts tree).filter (fun x => decide (x ∉ usedStmts tree))

/-- Test performed on each target in the rebuild loop:
`isinstance(target, ast.Name) and target.id not in unused_vars`. -/
def keepTargetB (unused : List String) (t : Expr) : Bool :=
  match t with
  | .name id _ => decide (id ∉ unused)
  | _ => false

/-- The statement-rebuilding loop of `remove_unused_variables` (`for node
in tree.body:`): an `ast.Assign` keeps only its `ast.Name` targets not in
`unused_vars` and is dropped when none remain; `ast.FunctionDef`,
`ast.ClassDef` and every other statement are appended unchanged. -/
def pruneBody (unused : List String) : List Stmt → List Stmt
  | [] => []
  | s :: rest =>
    match s with
    | .assign tgts v tc =>
      let targets := tgts.filter (keepTargetB unused)
      if targets.isEmpty then pruneBody unused rest
      else .assign targets v tc :: pruneBody unused rest
    | .functionDef n args body => .functionDef n args body :: pruneBody unused rest
    | .classDef n body => .classDef n body :: pruneBody unused rest
    | other => other :: pruneBody unused rest

/-- The whole tree-level pruning of `remove_unused_variables` on a
successfully parsed cell: collect the name sets, then rebuild the
top-level statement list. -/
def pruneTree (tree : List Stmt) : List Stmt := pruneBody (unusedVars tree) tree

/-- Spec-side per-statement keep function, written from the words of the
claims: an assignment is kept only with the subset of its `Name` targets
not in `unused` and dropped entirely when that subset is empty; every
other statement kind is kept verbatim.  Compared with `pruneBody` (the
embedding of the source loop) in the refinement theorem below. -/
def keepStmtSpec (unused : List String) : Stmt → Option Stmt
  | .assign tgts v tc =>
    let kept := tgts.filter (keepTargetB unused)
    if kept.isEmpty then none else some (.assign kept v tc)
  | s => some s

/-- Separator-join of a list of strings (models `str.join`). -/
def joinSep (sep : String) : List String → String
  | [] => ""
  | [x] => x
  | x :: y :: xs => x ++ sep ++ joinSep sep (y :: xs)

/-- Concatenation of a list of strings. -/
def concatStrs : List String → String
  | [] => ""
  | s :: ss => s ++ concatStrs ss

mutual

/-- Rendering of one expression back to text.  Stands in for the external
`astunparse` library (not part of this repository); no claim depends on
the exact rendered text of a pruned tree. -/
def unparseExpr : Expr → String
  | .name id _ => id
  | .intConst n => toString n
  | .strConst s => "\"" ++ s ++ "\""
  | .binOp l r => "(" ++ unparseExpr l ++ " + " ++ unparseExpr r ++ ")"
  | .attrOf v a _ => unparseExpr v ++ "." ++ a
  | .call f args => unparseExpr f ++ "(" ++ joinSep ", " (unparseExprList args) ++ ")"
  | .tuple elts _ => "(" ++ joinSep ", " (unparseExprList elts) ++ ")"

/-- Rendered forms of the expressions of an `ExprList`. -/
def unparseExprList : ExprList → List String
  | .nil => []
  | .cons e es => unparseExpr e :: unparseExprList es

end

mutual

/-- Rendering of one statement at the given indentation.  Stands in for
`astunparse.unparse` (external library). -/
def unparseStmt (ind : String) : Stmt → String
  | .assign tgts v _ =>
      ind ++ joinSep " = " (tgts.map unparseExpr) ++ " = " ++ unparseExpr v ++ "\n"
  | .forIn tgt iter body orelse =>
      ind ++ "for " ++ unparseExpr tgt ++ " in " ++ unparseExpr iter ++ ":\n" ++
        unparseStmtList (ind ++ "    ") body ++
        (if orelse = .nil then ""
         else ind ++ "else:\n" ++ unparseStmtList (ind ++ "    ") orelse)
  | .functionDef n args body =>
      ind ++ "def " ++ n ++ "(" ++ joinSep ", " args ++ "):\n" ++
        unparseStmtList (ind ++ "    ") body
  | .classDef n body =>
      ind ++ "class " ++ n ++ ":\n" ++ unparseStmtList (ind ++ "    ") body
  | .ifStmt test body orelse =>
      ind ++ "if " ++ unparseExpr test ++ ":\n" ++
        unparseStmtList (ind ++ "    ") body ++
        (if orelse = .nil then ""
         else ind ++ "else:\n" ++ unparseStmtList (ind ++ "    ") orelse)
  | .exprStmt e => ind ++ unparseExpr e ++ "\n"
  | .passStmt => ind ++ "pass\n"

/-- Rendered forms of the statements of a `StmtList`, concatenated. -/
def unparseStmtList (ind : String) : StmtList → String
  | .nil => ""
  | .cons s ss => unparseStmt ind s ++ unparseStmtList ind ss

end

/-- Rendering of a whole top-level statement list (stands in for
`astunparse.unparse(new_tree)`). -/
def unparseStmts (tree : List Stmt) : String := concatStrs (tree.map (unparseStmt ""))

/-- Outcome of `ast.parse(source_code)` (the parser is the external `ast`
library, so its result on a given cell source is part of the model's
input): a tree, a raised `SyntaxError`, or a raised non-SyntaxError
exception such as the `ValueError` for source containing a null byte. -/
inductive ParseOutcome
  | ok (tree : List Stmt)
  | synErr (msg : String)
  | otherExc (msg : String)
deriving DecidableEq, Repr

/-- Whether the parse outcome is a non-SyntaxError exception. -/
def ParseOutcome.isOtherExc : ParseOutcome → Bool
  | .otherExc _ => true
  | _ => false

/-- Exception escaping `remove_unused_variables` (only non-SyntaxError
parse exceptions do, since the function's handler catches `SyntaxError`
alone). -/
inductive PruneExc
  | uncaught (msg : String)
deriving DecidableEq, Repr

/-- Warning logged by `remove_unused_variables` when it skips a cell. -/
inductive Warning
  | skippedPruning (msg : String)
deriving DecidableEq, Repr

/-- Embedding of `remove_unused_variables(source_code)`: on a parsed tree
it prunes and re-renders; on a `SyntaxError` it logs a warning and
returns the original text unchanged; any other exception propagates
(modelled by the `Except` error). -/
def remove_unused_variables (sourceCode : String) (parsed : ParseOutcome) :
    Except PruneExc (String × List Warning) :=
  match parsed with
  | .ok tree => .ok (unparseStmts (pruneTree tree), [])
  | .synErr m => .ok (sourceCode, [.skippedPruning m])
  | .otherExc m => .error (.uncaught m)

/-- Notebook cell kind (`cell.cell_type`). -/
inductive CellType
  | code
  | markdown
  | raw
deriving DecidableEq, Repr

/-- One notebook cell: its kind, its source text, and the outcome of
`ast.parse` on that text (used only for code cells when pruning is
enabled). -/
structure Cell where
  cellType : CellType
  source : String
  parsed : ParseOutcome
deriving DecidableEq, Repr

/-- Python `str.splitlines` restricted to `\n` separators (the model's
line terminator): splits at every newline and drops a final empty
segment, so `"a\n"` gives `["a"]` and `""` gives `[]`. -/
def splitlinesAux : List Char → List Char → List String
  | [], acc => if acc.isEmpty then [] else [String.mk acc.reverse]
  | c :: cs, acc =>
    if c = '\n' then String.mk acc.reverse :: splitlinesAux cs []
    else splitlinesAux cs (c :: acc)

/-- Line splitting of a string (models `str.splitlines`). -/
def splitlines (s : String) : List String := splitlinesAux s.data []

/-- Markdown cell rendering of the assembler:
`"\n# " + "\n# ".join(markdown_lines) + "\n\n"`. -/
def commentMarkdown (source : String) : String :=
  "\n# " ++ joinSep "\n# " (splitlines source) ++ "\n\n"

/-- The cell loop of `convert_ipynb_to_py` building `python_code`: code
cells contribute their (optionally pruned) source followed by two
newlines, markdown cells contribute their comment block, other cells are
ignored; a non-SyntaxError exception during pruning propagates. -/
def assembleCells (removeUnused : Bool) : List Cell → Except PruneExc String
  | [] => .ok ""
  | c :: rest =>
    match c.cellType with
    | .code =>
      match (if removeUnused then remove_unused_variables c.source c.parsed
             else .ok (c.source, [])) with
      | .error e => .error e
      | .ok (txt, _) => (assembleCells removeUnused rest).map (fun r => txt ++ "\n\n" ++ r)
    | .markdown => (assembleCells removeUnused rest).map (fun r => commentMarkdown c.source ++ r)
    | .raw => assembleCells removeUnused rest

/-- Whether the character list starts with the given pattern (models
`str.startswith`). -/
def listStartsWith : List Char → List Char → Bool
  | _, [] => true
  | [], _ :: _ => false
  | a :: as, b :: bs => (a = b) && listStartsWith as bs

/-- String form of `listStartsWith` (models `str.startswith`). -/
def strStartsWith (s pre : String) : Bool := listStartsWith s.data pre.data

/-- Test of the formatter loop: `line.startswith("def ") or
line.startswith("class ")`. -/
def isDefLine (line : String) : Bool :=
  strStartsWith line "def " || strStartsWith line "class "

/-- Whether a line is empty after stripping whitespace (models
`not line.strip()`). -/
def stripEmpty (line : String) : Bool := line.data.all Char.isWhitespace

/-- Change message recorded by `format_code` for an inserted blank line,
with the 1-based line number of the definition line. -/
def chMsg (k : Nat) : String :=
  "Added newline before function/class definition at line " ++ toString k

/-- The line loop of `format_code` (`for i, line in enumerate(lines)`):
`i` is the 0-based index, `prevEmpty` is `prev_line_empty`, `fl` is
`formatted_lines`, `ch` is `changes`.  A definition line gets a blank
line inserted before it when the previously emitted line was non-blank
and some line has been emitted (recorded in `changes`), and a blank line
appended after it unconditionally (not recorded); every other line
passes through. -/
def formatCodeLoop : List String → Nat → Bool → List String → List String →
    List String × List String
  | [], _, _, fl, ch => (fl, ch)
  | line :: rest, i, prevEmpty, fl, ch =>
    if isDefLine line then
      if !prevEmpty && !fl.isEmpty then
        formatCodeLoop rest (i + 1) true (fl ++ ["", line, ""]) (ch ++ [chMsg (i + 1)])
      else
        formatCodeLoop rest (i + 1) true (fl ++ [line, ""]) ch
    else
      formatCodeLoop rest (i + 1) (stripEmpty line) (fl ++ [line]) ch

/-- Embedding of `format_code(source_code)`: run the line loop and join
the emitted lines with newlines, returning them with the recorded
changes. -/
def format_code (sourceCode : String) : String × List String :=
  let r := formatCodeLoop (splitlines sourceCode) 0 true [] []
  (joinSep "\n" r.1, r.2)

/-- Lines emitted by the minimal formatter, before joining. -/
def formattedLines (sourceCode : String) : List String :=
  (formatCodeLoop (splitlines sourceCode) 0 true [] []).1

/-- Changes recorded by the minimal formatter. -/
def formatChanges (sourceCode : String) : List String :=
  (formatCodeLoop (splitlines sourceCode) 0 true [] []).2

/-- Behaviour of the external-formatter invocation (the `black`
subprocess, an external collaborator): it runs and rewrites the file with
some function of its content, or the binary is missing
(`FileNotFoundError`), or it exits non-zero (`CalledProcessError`), or
some other exception is raised during invocation. -/
inductive BlackEnv
  | runs (tool : String → String)
  | toolMissing
  | procError (msg : String)
  | otherFailure (msg : String)

/-- Result of the external-formatter stage: the returned text and change
list, plus whether `os.unlink(temp_file_path)` ran before the stage
returned.  The temporary file is created at the top of the `try` block in
every case; the source only unlinks it on the success path. -/
structure BlackOutcome where
  code : String
  changes : List String
  tempFileDeleted : Bool
deriving Repr

/-- Embedding of `format_with_black(source_code)`: on success, the tool's
rewrite of the blob with the temp file unlinked; on
`FileNotFoundError`, the minimal formatter's result; on
`CalledProcessError` or any other exception, the original text with a
recorded error message.  On all three exception paths the `os.unlink`
call is never reached. -/
def format_with_black (env : BlackEnv) (sourceCode : String) : BlackOutcome :=
  match env with
  | .runs tool =>
      { code := tool sourceCode, changes := ["Formatted using black"], tempFileDeleted := true }
  | .toolMissing =>
      { code := (format_code sourceCode).1, changes := (format_code sourceCode).2,
        tempFileDeleted := false }
  | .procError m =>
      { code := sourceCode, changes := ["black formatting failed: " ++ m],
        tempFileDeleted := false }
  | .otherFailure m =>
      { code := sourceCode, changes := ["black formatting error: " ++ m],
        tempFileDeleted := false }

/-- Outcome of one conversion run: output written, input file missing
(`FileNotFoundError` handler), or aborted by the generic exception
handler (in both failure cases nothing is written to the output path,
since the write happens after all stages succeed). -/
inductive ConvertOutcome
  | written (text : String)
  | fileNotFound
  | errorAborted
deriving Repr

/-- Whether the run produced an output file. -/
def ConvertOutcome.isWritten : ConvertOutcome → Bool
  | .written _ => true
  | _ => false

/-- Embedding of `convert_ipynb_to_py`: `input` is `none` when opening the
notebook raises `FileNotFoundError`, otherwise the loaded cells; the
assembled blob is formatted with `black` or the minimal formatter per the
flag; an exception escaping the cell loop reaches the generic handler and
aborts the run with nothing written. -/
def convert_ipynb_to_py (input : Option (List Cell)) (removeUnused useBlack : Bool)
    (env : BlackEnv) : ConvertOutcome :=
  match input with
  | none => .fileNotFound
  | some cells =>
    match assembleCells removeUnused cells with
    | .error _ => .errorAborted
    | .ok blob =>
      if useBlack then .written (format_with_black env blob).code
      else .written (format_code blob).1

/-- Spec-side rendering of a markdown-only notebook, written from the
words of claim C7: each cell's lines prefixed with `"# "`, joined with
newlines, each cell's block followed by two newlines, nothing else
added.  Compared with the assembler's actual output. -/
def specMarkdownRender (cells : List Cell) : String :=
  concatStrs (cells.map (fun c =>
    joinSep "\n" ((splitlines c.source).map (fun l => "# " ++ l)) ++ "\n\n"))

/-- Load-context names occurring in a top-level assignment statement (its
targets and its value); `[]` for every other statement. -/
def stmtAssignLoads : Stmt → List String
  | .assign tgts v _ => (tgts.map usedExpr).flatten ++ usedExpr v
  | _ => []

/-- Whether an expression is a plain `ast.Name` node. -/
def isNameTarget : Expr → Bool
  | .name _ _ => true
  | _ => false

/-- Whether a statement is an `ast.Assign`. -/
def isAssignStmt : Stmt → Bool
  | .assign _ _ _ => true
  | _ => false

/-- Blank-line placement property of an emitted line list: every
definition line is immediately followed by an inserted blank line, and is
either the first emitted line or immediately preceded by a line that is
empty after stripping. -/
def BlanksOk (fl : List String) : Prop :=
  ∀ j s, fl[j]? = some s → isDefLine s = true →
    fl[j + 1]? = some "" ∧ (j = 0 ∨ ∃ p, fl[j - 1]? = some p ∧ stripEmpty p = true)

/-- Last-line property matching the `prev_line_empty` flag: the emitted
list is empty or ends in a line that is empty after stripping. -/
def LastBlankOk (fl : List String) : Prop :=
  fl = [] ∨ ∃ s, fl.getLast? = some s ∧ stripEmpty s = true

/-- Shape of the recorded change list of the minimal formatter: every
entry is the before-insertion message carrying some 1-based line
number. -/
def ChangesOk (ch : List String) : Prop := ∀ m ∈ ch, ∃ k, 1 ≤ k ∧ m = chMsg k

/-! Concrete inputs used by witnesses and counterexamples. -/

/-- Cell body `x = 5` followed by `print(1)`: the assignment's target is
never read. -/
def exTreeC1 : List Stmt :=
  [.assign [.name "x" .store] (.intConst 5) none,
   .exprStmt (.call (.name "print" .load) (.cons (.intConst 1) .nil))]

/-- Cell body `a, b = 1, 2` followed by `print(a)`: a tuple assignment one
of whose target names is read afterwards. -/
def exTreeC3 : List Stmt :=
  [.assign [.tuple (.cons (.name "a" .store) (.cons (.name "b" .store) .nil)) .store]
     (.tuple (.cons (.intConst 1) (.cons (.intConst 2) .nil)) .load) none,
   .exprStmt (.call (.name "print" .load) (.cons (.name "a" .load) .nil))]

/-- Cell body `x = 5`, `y = x`, `print(1)`: removing the dead `y = x`
leaves `x` unread. -/
def exTreeC4 : List Stmt :=
  [.assign [.name "x" .store] (.intConst 5) none,
   .assign [.name "y" .store] (.name "x" .load) none,
   .exprStmt (.call (.name "print" .load) (.cons (.intConst 1) .nil))]

/-- Cell body `x = 5` followed by `def f(): print(x)`: the name `x` is
read only inside the nested function body. -/
def exTreeC9a : List Stmt :=
  [.assign [.name "x" .store] (.intConst 5) none,
   .functionDef "f" []
     (.cons (.exprStmt (.call (.name "print" .load) (.cons (.name "x" .load) .nil))) .nil)]

/-- Cell body `def g(): y = 1`: the name `y` is bound only inside the
nested function body. -/
def exTreeC9b : List Stmt :=
  [.functionDef "g" [] (.cons (.assign [.name "y" .store] (.intConst 1) none) .nil)]

/-- Body of the function `f` in `exTreeC9a` (`print(x)`). -/
def exBodyC9 : StmtList :=
  .cons (.exprStmt (.call (.name "print" .load) (.cons (.name "x" .load) .nil))) .nil

/-- Notebook consisting of one markdown cell with source `hello`. -/
def exCellsMd : List Cell := [{ cellType := .markdown, source := "hello", parsed := .ok [] }]

/-- Notebook consisting of one code cell whose source fails to parse with
a `SyntaxError` (a line magic). -/
def exCellsSyn : List Cell :=
  [{ cellType := .code, source := "%matplotlib inline", parsed := .synErr "invalid" }]

/-- Notebook consisting of one code cell whose source makes `ast.parse`
raise a non-SyntaxError exception (a null byte gives `ValueError`). -/
def exCellsOther : List Cell :=
  [{ cellType := .code, source := "x = 1", parsed := .otherExc "null bytes" }]

/-! Shared helper lemmas. -/

/-- Membership in `unused_vars` is membership in `defined_vars` together
with absence from `used_vars`. -/
theorem mem_unusedVars {tree : List Stmt} {x : String} :
    x ∈ unusedVars tree ↔ x ∈ definedStmts tree ∧ x ∉ usedStmts tree := by
  simp [unusedVars, List.mem_filter]

/-- The statement-rebuilding loop of the source equals the per-statement
keep function mapped over the top-level statement list. -/
theorem pruneBody_eq_filterMap (u : List String) (l : List Stmt) :
    pruneBody u l = l.filterMap (keepStmtSpec u) := by
  induction l with
  | nil => rfl
  | cons s rest ih =>
    cases s with
    | assign tgts v tc =>
      simp only [pruneBody, keepStmtSpec, List.filterMap_cons]
      by_cases h : (List.filter (keepTargetB u) tgts).isEmpty
      · simp [h, ih]
      · simp [h, ih]
    | forIn t it b o => simp [pruneBody, keepStmtSpec, List.filterMap_cons, ih]
    | functionDef n ar b => simp [pruneBody, keepStmtSpec, List.filterMap_cons, ih]
    | classDef n b => simp [pruneBody, keepStmtSpec, List.filterMap_cons, ih]
    | ifStmt t b o => simp [pruneBody, keepStmtSpec, List.filterMap_cons, ih]
    | exprStmt e => simp [pruneBody, keepStmtSpec, List.filterMap_cons, ih]
    | passStmt => simp [pruneBody, keepStmtSpec, List.filterMap_cons, ih]

/-! Claim C1. -/

/-- C1: for every code cell that parses, the pruning pass removes a
top-level simple assignment whose target name is in `defined` and never
in `used`, retains an assignment whose target name is read somewhere,
keeps an assignment only with the subset of its `Name` targets not in
`unused` (dropping the whole statement when that subset is empty), and
keeps every other top-level statement kind verbatim. -/
theorem C1_top_level_pruning (tree : List Stmt) :
    pruneTree tree = tree.filterMap (keepStmtSpec (unusedVars tree)) ∧
    (∀ x c v tc, x ∈ definedStmts tree → x ∉ usedStmts tree →
      Stmt.assign [Expr.name x c] v tc ∉ pruneTree tree) ∧
    (∀ x c v tc, Stmt.assign [Expr.name x c] v tc ∈ tree → x ∈ usedStmts tree →
      Stmt.assign [Expr.name x c] v tc ∈ pruneTree tree) ∧
    (∀ s ∈ tree, isAssignStmt s = false → s ∈ pruneTree tree) := by
  refine ⟨pruneBody_eq_filterMap _ _, ?_, ?_, ?_⟩
  · intro x c v tc hd hu hmem
    rw [pruneTree, pruneBody_eq_filterMap] at hmem
    rcases List.mem_filterMap.1 hmem with ⟨a, _, hfa⟩
    cases a with
    | assign tgts v' tc' =>
      simp only [keepStmtSpec] at hfa
      by_cases hk : (List.filter (keepTargetB (unusedVars tree)) tgts).isEmpty
      · rw [if_pos hk] at hfa
        exact Option.noConfusion hfa
      · rw [if_neg hk] at hfa
        injection hfa with h1
        injection h1 with ht hv htc
        have hx : Expr.name x c ∈ List.filter (keepTargetB (unusedVars tree)) tgts := by
          rw [ht]; exact List.mem_singleton.2 rfl
        have hkeep := (List.mem_filter.1 hx).2
        simp only [keepTargetB, decide_eq_true_eq] at hkeep
        exact hkeep (mem_unusedVars.2 ⟨hd, hu⟩)
    | forIn t it b o => simp [keepStmtSpec] at hfa
    | functionDef n ar b => simp [keepStmtSpec] at hfa
    | classDef n b => simp [keepStmtSpec] at hfa
    | ifStmt t b o => simp [keepStmtSpec] at hfa
    | exprStmt e => simp [keepStmtSpec] at hfa
    | passStmt => simp [keepStmtSpec] at hfa
  · intro x c v tc hmem hu
    rw [pruneTree, pruneBody_eq_filterMap]
    have hxu : x ∉ unusedVars tree := fun hx => (mem_unusedVars.1 hx).2 hu
    refine List.mem_filterMap.2 ⟨_, hmem, ?_⟩
    have hkt : keepTargetB (unusedVars tree) (Expr.name x c) = true := by
      simp [keepTargetB, hxu]
    simp [keepStmtSpec, List.filter_cons, hkt]
  · intro s hs hns
    rw [pruneTree, pruneBody_eq_filterMap]
    refine List.mem_filterMap.2 ⟨s, hs, ?_⟩
    cases s <;> simp [keepStmtSpec, isAssignStmt] at hns ⊢

/-- Witness for C1 at the concrete cell `x = 5` followed by `print(1)`:
the dead assignment is dropped and the expression statement is kept. -/
theorem C1_top_level_pruning_witness :
    ("x" ∈ definedStmts exTreeC1 ∧ "x" ∉ usedStmts exTreeC1 ∧
      Stmt.exprStmt (Expr.call (Expr.name "print" .load) (.cons (.intConst 1) .nil)) ∈ exTreeC1) ∧
    Stmt.assign [Expr.name "x" .store] (Expr.intConst 5) none ∉ pruneTree exTreeC1 ∧
    Stmt.exprStmt (Expr.call (Expr.name "print" .load) (.cons (.intConst 1) .nil)) ∈
      pruneTree exTreeC1 :=
  ⟨⟨by decide, by decide, by decide⟩,
   (C1_top_level_pruning exTreeC1).2.1 "x" .store (Expr.intConst 5) none (by decide) (by decide),
   (C1_top_level_pruning exTreeC1).2.2.2 _ (by decide) (by decide)⟩

/-! Claim C3. -/

/-- Counterexample to C3 as stated: in the cell `a, b = 1, 2` followed by
`print(a)` the target name `a` is read afterwards, yet the pass drops the
whole tuple assignment (its single target is an `ast.Tuple`, not an
`ast.Name`, so no target survives the rebuild filter). -/
theorem C3_counterexample :
    "a" ∈ usedStmts exTreeC3 ∧
    pruneTree exTreeC3 =
      [Stmt.exprStmt (Expr.call (Expr.name "print" .load) (.cons (.name "a" .load) .nil))] :=
  ⟨by decide, rfl⟩

/-- C3 amended: an assignment none of whose targets is a plain `Name`
node (for example `a, b = 1, 2`, whose sole target is a `Tuple`) is
dropped wholesale, regardless of whether any of its element names is
read; and every assignment surviving the pass has a nonempty target list
consisting solely of `Name` targets whose names are not in `unused` —
tuple targets are never pruned element by element because they are never
kept at all. -/
theorem C3_tuple_assignments (tree : List Stmt) :
    (∀ tgts v tc, Stmt.assign tgts v tc ∈ tree → (∀ t ∈ tgts, isNameTarget t = false) →
      Stmt.assign tgts v tc ∉ pruneTree tree) ∧
    (∀ tgts v tc, Stmt.assign tgts v tc ∈ pruneTree tree →
      tgts ≠ [] ∧ ∀ t ∈ tgts, ∃ id c, t = Expr.name id c ∧ id ∉ unusedVars tree) := by
  constructor
  · intro tgts v tc _ hnone hc
    rw [pruneTree, pruneBody_eq_filterMap] at hc
    rcases List.mem_filterMap.1 hc with ⟨a, _, hfa⟩
    cases a with
    | assign tgts' v' tc' =>
      simp only [keepStmtSpec] at hfa
      by_cases hk : (List.filter (keepTargetB (unusedVars tree)) tgts').isEmpty
      · rw [if_pos hk] at hfa
        exact Option.noConfusion hfa
      · rw [if_neg hk] at hfa
        injection hfa with h1
        injection h1 with ht hv htc
        have hne : tgts ≠ [] := by
          intro h0
          exact hk (by rw [ht, h0]; rfl)
        obtain ⟨t, ts, h0⟩ : ∃ t ts, tgts = t :: ts := by
          cases tgts with
          | nil => exact absurd rfl hne
          | cons t ts => exact ⟨t, ts, rfl⟩
        have htmem : t ∈ List.filter (keepTargetB (unusedVars tree)) tgts' := by
          rw [ht, h0]; exact List.mem_cons_self _ _
        have hkeep := (List.mem_filter.1 htmem).2
        have hfalse := hnone t (by rw [h0]; exact List.mem_cons_self _ _)
        cases t <;> simp [keepTargetB, isNameTarget] at hkeep hfalse
    | forIn t it b o => simp [keepStmtSpec] at hfa
    | functionDef n ar b => simp [keepStmtSpec] at hfa
    | classDef n b => simp [keepStmtSpec] at hfa
    | ifStmt t b o => simp [keepStmtSpec] at hfa
    | exprStmt e => simp [keepStmtSpec] at hfa
    | passStmt => simp [keepStmtSpec] at hfa
  · intro tgts v tc hc
    rw [pruneTree, pruneBody_eq_filterMap] at hc
    rcases List.mem_filterMap.1 hc with ⟨a, _, hfa⟩
    cases a with
    | assign tgts' v' tc' =>
      simp only [keepStmtSpec] at hfa
      by_cases hk : (List.filter (keepTargetB (unusedVars tree)) tgts').isEmpty
      · rw [if_pos hk] at hfa
        exact Option.noConfusion hfa
      · rw [if_neg hk] at hfa
        injection hfa with h1
        injection h1 with ht hv htc
        constructor
        · intro h0
          exact hk (by rw [ht, h0]; rfl)
        · intro t htm
          have htmem : t ∈ List.filter (keepTargetB (unusedVars tree)) tgts' := by
            rw [ht]; exact htm
          have hkeep := (List.mem_filter.1 htmem).2
          cases t with
          | name id c =>
            refine ⟨id, c, rfl, ?_⟩
            simpa [keepTargetB] using hkeep
          | intConst n => simp [keepTargetB] at hkeep
          | strConst s => simp [keepTargetB] at hkeep
          | binOp l r => simp [keepTargetB] at hkeep
          | attrOf e a c => simp [keepTargetB] at hkeep
          | call f args => simp [keepTargetB] at hkeep
          | tuple elts c => simp [keepTargetB] at hkeep
    | forIn t it b o => simp [keepStmtSpec] at hfa
    | functionDef n ar b => simp [keepStmtSpec] at hfa
    | classDef n b => simp [keepStmtSpec] at hfa
    | ifStmt t b o => simp [keepStmtSpec] at hfa
    | exprStmt e => simp [keepStmtSpec] at hfa
    | passStmt => simp [keepStmtSpec] at hfa

/-- Witness for the amended C3 at `a, b = 1, 2; print(a)`: the tuple
assignment is in the cell, `a` is read, no target is a `Name`, and the
statement is dropped. -/
theorem C3_tuple_assignments_witness :
    (Stmt.assign [Expr.tuple (.cons (.name "a" .store) (.cons (.name "b" .store) .nil)) .store]
        (Expr.tuple (.cons (.intConst 1) (.cons (.intConst 2) .nil)) .load) none ∈ exTreeC3 ∧
      "a" ∈ usedStmts exTreeC3) ∧
    Stmt.assign [Expr.tuple (.cons (.name "a" .store) (.cons (.name "b" .store) .nil)) .store]
        (Expr.tuple (.cons (.intConst 1) (.cons (.intConst 2) .nil)) .load) none ∉
      pruneTree exTreeC3 :=
  ⟨⟨by decide, by decide⟩,
   (C3_tuple_assignments exTreeC3).1 _ _ _ (by decide) (by decide)⟩

/-! Claim C4. -/

/-- Counterexample to C4 as stated: for the cell `x = 5`, `y = x`,
`print(1)` one pass removes only `y = x`, and a second pass also removes
`x = 5` (its sole read disappeared with `y = x`).  The two outputs differ
in their statement count, so the difference is not whitespace
normalization. -/
theorem C4_counterexample :
    pruneTree exTreeC4 =
      [Stmt.assign [Expr.name "x" .store] (Expr.intConst 5) none,
       Stmt.exprStmt (Expr.call (Expr.name "print" .load) (.cons (.intConst 1) .nil))] ∧
    pruneTree (pruneTree exTreeC4) =
      [Stmt.exprStmt (Expr.call (Expr.name "print" .load) (.cons (.intConst 1) .nil))] ∧
    (pruneTree (pruneTree exTreeC4)).length ≠ (pruneTree exTreeC4).length :=
  ⟨rfl, rfl, by decide⟩

/-- Helper: a filtered target list contributes no load-context names when
the unfiltered one contributes none. -/
theorem usedFlatten_filter_eq_nil {p : Expr → Bool} {tgts : List Expr}
    (h : ((tgts.map usedExpr).flatten : List String) = []) :
    (((tgts.filter p).map usedExpr).flatten : List String) = [] := by
  induction tgts with
  | nil => rfl
  | cons t ts ih =>
    simp only [List.map_cons, List.flatten_cons, List.append_eq_nil] at h
    obtain ⟨h1, h2⟩ := h
    simp only [List.filter_cons]
    by_cases hp : p t
    · simp [hp, h1, ih h2]
    · simp [hp, ih h2]

/-- Helper: `used_vars` collection distributes over a cons of the
top-level statement list. -/
theorem usedStmts_cons (s : Stmt) (l : List Stmt) :
    usedStmts (s :: l) = usedStmt s ++ usedStmts l := by
  simp [usedStmts]

/-- Helper: `defined_vars` collection distributes over a cons of the
top-level statement list. -/
theorem definedStmts_cons (s : Stmt) (l : List Stmt) :
    definedStmts (s :: l) = definedStmt s ++ definedStmts l := by
  simp [definedStmts]

/-- Helper: when no top-level assignment reads a name, the rebuild does
not change the `used_vars` collection. -/
theorem usedStmts_pruneBody (u : List String) (l : List Stmt)
    (h : ∀ s ∈ l, stmtAssignLoads s = []) :
    usedStmts (pruneBody u l) = usedStmts l := by
  induction l with
  | nil => rfl
  | cons s rest ih =>
    have hs := h s (List.mem_cons_self s rest)
    have hrest : ∀ a ∈ rest, stmtAssignLoads a = [] :=
      fun a ha => h a (List.mem_cons_of_mem _ ha)
    cases s with
    | assign tgts v tc =>
      simp only [stmtAssignLoads, List.append_eq_nil] at hs
      obtain ⟨h1, h2⟩ := hs
      simp only [pruneBody]
      by_cases hk : (List.filter (keepTargetB u) tgts).isEmpty
      · rw [if_pos hk, ih hrest, usedStmts_cons]
        simp [usedStmt, h1, h2]
      · rw [if_neg hk, usedStmts_cons, usedStmts_cons, ih hrest]
        simp [usedStmt, h1, h2, usedFlatten_filter_eq_nil h1]
    | forIn t it b o => simp [pruneBody, usedStmts_cons, ih hrest]
    | functionDef n ar b => simp [pruneBody, usedStmts_cons, ih hrest]
    | classDef n b => simp [pruneBody, usedStmts_cons, ih hrest]
    | ifStmt t b o => simp [pruneBody, usedStmts_cons, ih hrest]
    | exprStmt e => simp [pruneBody, usedStmts_cons, ih hrest]
    | passStmt => simp [pruneBody, usedStmts_cons, ih hrest]

/-- Helper: the rebuild can only shrink the `defined_vars` collection. -/
theorem definedStmts_pruneBody_subset (u : List String) (l : List Stmt) :
    ∀ x, x ∈ definedStmts (pruneBody u l) → x ∈ definedStmts l := by
  induction l with
  | nil => intro x hx; simpa [pruneBody] using hx
  | cons s rest ih =>
    intro x hx
    cases s with
    | assign tgts v tc =>
      simp only [pruneBody] at hx
      by_cases hk : (List.filter (keepTargetB u) tgts).isEmpty
      · rw [if_pos hk] at hx
        simp only [definedStmts, List.map_cons, List.flatten_cons, List.mem_append]
        exact Or.inr (ih x hx)
      · rw [if_neg hk] at hx
        simp only [definedStmts, List.map_cons, List.flatten_cons, List.mem_append] at hx ⊢
        rcases hx with h1 | h2
        · left
          simp only [definedStmt] at h1 ⊢
          exact ((List.filter_sublist tgts).filterMap nameId).subset h1
        · exact Or.inr (ih x h2)
    | forIn t it b o =>
      simp only [pruneBody, definedStmts, List.map_cons, List.flatten_cons,
        List.mem_append] at hx ⊢
      rcases hx with h1 | h2
      · exact Or.inl h1
      · exact Or.inr (ih x h2)
    | functionDef n ar b =>
      simp only [pruneBody, definedStmts, List.map_cons, List.flatten_cons,
        List.mem_append] at hx ⊢
      rcases hx with h1 | h2
      · exact Or.inl h1
      · exact Or.inr (ih x h2)
    | classDef n b =>
      simp only [pruneBody, definedStmts, List.map_cons, List.flatten_cons,
        List.mem_append] at hx ⊢
      rcases hx with h1 | h2
      · exact Or.inl h1
      · exact Or.inr (ih x h2)
    | ifStmt t b o =>
      simp only [pruneBody, definedStmts, List.map_cons, List.flatten_cons,
        List.mem_append] at hx ⊢
      rcases hx with h1 | h2
      · exact Or.inl h1
      · exact Or.inr (ih x h2)
    | exprStmt e =>
      simp only [pruneBody, definedStmts, List.map_cons, List.flatten_cons,
        List.mem_append] at hx ⊢
      rcases hx with h1 | h2
      · exact Or.inl h1
      · exact Or.inr (ih x h2)
    | passStmt =>
      simp only [pruneBody, definedStmts, List.map_cons, List.flatten_cons,
        List.mem_append] at hx ⊢
      rcases hx with h1 | h2
      · exact Or.inl h1
      · exact Or.inr (ih x h2)

/-- Helper: a `filterMap` whose function keeps every member is the
identity. -/
theorem filterMap_eq_self_of_mem {α : Type} {f : α → Option α} {l : List α}
    (h : ∀ a ∈ l, f a = some a) : l.filterMap f = l := by
  induction l with
  | nil => rfl
  | cons a l ih =>
    rw [List.filterMap_cons_some (h a (List.mem_cons_self a l)),
      ih (fun b hb => h b (List.mem_cons_of_mem _ hb))]

/-- C4 amended: pruning is not idempotent in general (see the
counterexample: removing a dead assignment can make the target of an
earlier assignment unused, so a second application removes more).  It is
idempotent on every cell in which no top-level assignment statement reads
a name (neither in its value nor inside its targets), for then the
rebuild leaves the `used` set unchanged and only shrinks `defined`, so
every statement kept once is kept again. -/
theorem C4_pruning_idempotent_on_loadfree_assigns (tree : List Stmt)
    (h : ∀ s ∈ tree, stmtAssignLoads s = []) :
    pruneTree (pruneTree tree) = pruneTree tree := by
  have hrw : ∀ tr : List Stmt, pruneTree tr = tr.filterMap (keepStmtSpec (unusedVars tr)) :=
    fun tr => pruneBody_eq_filterMap (unusedVars tr) tr
  rw [hrw (pruneTree tree)]
  apply filterMap_eq_self_of_mem
  intro a ha
  rw [hrw tree] at ha
  rcases List.mem_filterMap.1 ha with ⟨s, _, hfs⟩
  cases s with
  | assign tgts v tc =>
    simp only [keepStmtSpec] at hfs
    by_cases hk : (List.filter (keepTargetB (unusedVars tree)) tgts).isEmpty
    · rw [if_pos hk] at hfs
      exact Option.noConfusion hfs
    · rw [if_neg hk] at hfs
      injection hfs with h1
      subst h1
      have hkeep : ∀ t ∈ List.filter (keepTargetB (unusedVars tree)) tgts,
          keepTargetB (unusedVars (pruneTree tree)) t = true := by
        intro t htm
        have h2 := (List.mem_filter.1 htm).2
        cases t with
        | name id c =>
          simp only [keepTargetB, decide_eq_true_eq] at h2 ⊢
          intro hid'
          obtain ⟨hd', hu'⟩ := mem_unusedVars.1 hid'
          have hd : id ∈ definedStmts tree :=
            definedStmts_pruneBody_subset (unusedVars tree) tree id hd'
          have hu : id ∉ usedStmts tree := by
            rw [← usedStmts_pruneBody (unusedVars tree) tree h]
            exact hu'
          exact h2 (mem_unusedVars.2 ⟨hd, hu⟩)
        | intConst n => simp [keepTargetB] at h2
        | strConst s' => simp [keepTargetB] at h2
        | binOp l r => simp [keepTargetB] at h2
        | attrOf e a c => simp [keepTargetB] at h2
        | call f args => simp [keepTargetB] at h2
        | tuple elts c => simp [keepTargetB] at h2
      have hfilter : List.filter (keepTargetB (unusedVars (pruneTree tree)))
          (List.filter (keepTargetB (unusedVars tree)) tgts) =
          List.filter (keepTargetB (unusedVars tree)) tgts :=
        List.filter_eq_self.2 hkeep
      simp only [keepStmtSpec, hfilter]
      rw [if_neg hk]
  | forIn t it b o =>
    simp only [keepStmtSpec, Option.some.injEq] at hfs
    subst hfs; rfl
  | functionDef n ar b =>
    simp only [keepStmtSpec, Option.some.injEq] at hfs
    subst hfs; rfl
  | classDef n b =>
    simp only [keepStmtSpec, Option.some.injEq] at hfs
    subst hfs; rfl
  | ifStmt t b o =>
    simp only [keepStmtSpec, Option.some.injEq] at hfs
    subst hfs; rfl
  | exprStmt e =>
    simp only [keepStmtSpec, Option.some.injEq] at hfs
    subst hfs; rfl
  | passStmt =>
    simp only [keepStmtSpec, Option.some.injEq] at hfs
    subst hfs; rfl

/-- Witness for the amended C4 at the cell `x = 5; print(1)` (its one
assignment reads no names). -/
theorem C4_pruning_idempotent_witness :
    (∀ s ∈ exTreeC1, stmtAssignLoads s = []) ∧
    pruneTree (pruneTree exTreeC1) = pruneTree exTreeC1 :=
  ⟨by decide, C4_pruning_idempotent_on_loadfree_assigns exTreeC1 (by decide)⟩

/-! Claim C9. -/

/-- Counterexample to C9 as stated: name collection uses `ast.walk`, which
recurses into every nested scope.  In `x = 5` followed by
`def f(): print(x)`, the name `x` is read only inside the nested function
body, yet it lands in the used set (and the pass consequently keeps
`x = 5` unchanged); in `def g(): y = 1`, the name `y` is bound only inside
the nested body, yet it lands in the defined set. -/
theorem C9_counterexample :
    "x" ∈ usedStmts exTreeC9a ∧
    pruneTree exTreeC9a = exTreeC9a ∧
    "y" ∈ definedStmts exTreeC9b :=
  ⟨by decide, rfl, by decide⟩

/-- C9 amended: name collection walks the entire tree, nested scopes
included — a name read inside a nested function or class body is added to
the `used` set, and a name bound there is added to the `defined` set;
only the statement-rebuilding step is restricted to top-level
statements. -/
theorem C9_collection_recurses (x n : String) (args : List String)
    (body : StmtList) (rest : List Stmt) :
    (x ∈ usedStmtList body → x ∈ usedStmts (Stmt.functionDef n args body :: rest)) ∧
    (x ∈ definedStmtList body → x ∈ definedStmts (Stmt.functionDef n args body :: rest)) ∧
    (x ∈ usedStmtList body → x ∈ usedStmts (Stmt.classDef n body :: rest)) ∧
    (x ∈ definedStmtList body → x ∈ definedStmts (Stmt.classDef n body :: rest)) := by
  refine ⟨?_, ?_, ?_, ?_⟩ <;> intro hx <;>
    simp [usedStmts_cons, definedStmts_cons, usedStmt, definedStmt, hx]

/-- Witness for the amended C9: `x` is read inside the body of `f` and is
collected for the whole cell. -/
theorem C9_collection_recurses_witness :
    "x" ∈ usedStmtList exBodyC9 ∧
    "x" ∈ usedStmts (Stmt.functionDef "f" [] exBodyC9 ::
      [Stmt.assign [Expr.name "x" .store] (Expr.intConst 5) none]) :=
  ⟨by decide,
   (C9_collection_recurses "x" "f" [] exBodyC9
     [Stmt.assign [Expr.name "x" .store] (Expr.intConst 5) none]).1 (by decide)⟩

/-! Claim C5. -/

/-- Helper: when no code cell's parse outcome is a non-SyntaxError
exception, the assembly loop finishes with a blob. -/
theorem assembleCells_ok_of_no_otherExc (ru : Bool) (cells : List Cell)
    (h : ∀ c ∈ cells, c.parsed.isOtherExc = false) :
    ∃ blob, assembleCells ru cells = .ok blob := by
  induction cells with
  | nil => exact ⟨"", rfl⟩
  | cons c rest ih =>
    obtain ⟨blob, hblob⟩ := ih (fun a ha => h a (List.mem_cons_of_mem _ ha))
    have hc := h c (List.mem_cons_self c rest)
    cases hct : c.cellType with
    | code =>
      cases ru with
      | true =>
        cases hp : c.parsed with
        | ok tree =>
          refine ⟨unparseStmts (pruneTree tree) ++ "\n\n" ++ blob, ?_⟩
          simp [assembleCells, hct, hp, remove_unused_variables, hblob, Except.map]
        | synErr m =>
          refine ⟨c.source ++ "\n\n" ++ blob, ?_⟩
          simp [assembleCells, hct, hp, remove_unused_variables, hblob, Except.map]
        | otherExc m => simp [hp, ParseOutcome.isOtherExc] at hc
      | false =>
        refine ⟨c.source ++ "\n\n" ++ blob, ?_⟩
        simp [assembleCells, hct, hblob, Except.map]
    | markdown =>
      exact ⟨commentMarkdown c.source ++ blob, by simp [assembleCells, hct, hblob, Except.map]⟩
    | raw => exact ⟨blob, by simp [assembleCells, hct, hblob]⟩

/-- C5: a code cell whose source raises a `SyntaxError` in the parser
passes through the pruning pass unchanged with a recorded warning, and a
conversion run whose cells raise no other exception kind completes and
writes its output (it does not abort). -/
theorem C5_syntax_error_recovery :
    (∀ src m, remove_unused_variables src (.synErr m) = .ok (src, [.skippedPruning m])) ∧
    (∀ cells ru ub env, (∀ c ∈ cells, c.parsed.isOtherExc = false) →
      ∃ t, convert_ipynb_to_py (some cells) ru ub env = .written t) := by
  constructor
  · intro src m; rfl
  · intro cells ru ub env h
    obtain ⟨blob, hblob⟩ := assembleCells_ok_of_no_otherExc ru cells h
    cases ub with
    | true =>
      exact ⟨(format_with_black env blob).code, by simp [convert_ipynb_to_py, hblob]⟩
    | false =>
      exact ⟨(format_code blob).1, by simp [convert_ipynb_to_py, hblob]⟩

/-- Witness for C5 at a one-cell notebook whose code cell is the line
magic `%matplotlib inline`. -/
theorem C5_syntax_error_recovery_witness :
    remove_unused_variables "%matplotlib inline" (.synErr "invalid") =
      .ok ("%matplotlib inline", [.skippedPruning "invalid"]) ∧
    ((∀ c ∈ exCellsSyn, c.parsed.isOtherExc = false) ∧
      ∃ t, convert_ipynb_to_py (some exCellsSyn) true true .toolMissing = .written t) :=
  ⟨C5_syntax_error_recovery.1 "%matplotlib inline" "invalid",
   ⟨by decide, C5_syntax_error_recovery.2 exCellsSyn true true .toolMissing (by decide)⟩⟩

/-! Claim C10. -/

/-- Helper: one code cell whose parse raises a non-SyntaxError exception
makes the whole assembly loop fail when pruning is enabled. -/
theorem assembleCells_error_of_member (cells : List Cell) (c : Cell)
    (hm : c ∈ cells) (hcode : c.cellType = .code) (m : String)
    (hp : c.parsed = .otherExc m) :
    ∃ e, assembleCells true cells = .error e := by
  induction cells with
  | nil => cases hm
  | cons a rest ih =>
    rcases List.mem_cons.1 hm with rfl | hmem
    · exact ⟨.uncaught m, by simp [assembleCells, hcode, remove_unused_variables, hp]⟩
    · obtain ⟨e, he⟩ := ih hmem
      cases hct : a.cellType with
      | code =>
        cases hpa : a.parsed with
        | ok tree =>
          exact ⟨e, by simp [assembleCells, hct, hpa, remove_unused_variables, he, Except.map]⟩
        | synErr m' =>
          exact ⟨e, by simp [assembleCells, hct, hpa, remove_unused_variables, he, Except.map]⟩
        | otherExc m' =>
          exact ⟨.uncaught m', by simp [assembleCells, hct, hpa, remove_unused_variables]⟩
      | markdown => exact ⟨e, by simp [assembleCells, hct, he, Except.map]⟩
      | raw => exact ⟨e, by simp [assembleCells, hct, he]⟩

/-- C10: only `SyntaxError` is recoverable in the pruning pass — on a
non-SyntaxError parse exception `remove_unused_variables` propagates the
exception, the conversion is aborted by the generic top-level handler,
and the aborted outcome writes no output file. -/
theorem C10_non_syntax_error_aborts :
    (∀ src m, remove_unused_variables src (.otherExc m) = .error (.uncaught m)) ∧
    (∀ cells ub env (c : Cell), c ∈ cells → c.cellType = .code →
      ∀ m, c.parsed = .otherExc m →
        convert_ipynb_to_py (some cells) true ub env = .errorAborted) ∧
    ConvertOutcome.errorAborted.isWritten = false := by
  refine ⟨fun src m => rfl, ?_, rfl⟩
  intro cells ub env c hm hcode m hp
  obtain ⟨e, he⟩ := assembleCells_error_of_member cells c hm hcode m hp
  simp [convert_ipynb_to_py, he]

/-- Witness for C10 at a one-cell notebook whose code cell makes the
parser raise a non-SyntaxError exception. -/
theorem C10_non_syntax_error_aborts_witness :
    convert_ipynb_to_py (some exCellsOther) true true .toolMissing = .errorAborted :=
  C10_non_syntax_error_aborts.2.1 exCellsOther true .toolMissing
    { cellType := .code, source := "x = 1", parsed := .otherExc "null bytes" }
    (by decide) rfl "null bytes" rfl

/-! Claim C6. -/

/-- C6: on a missing tool binary the external-formatter stage returns
exactly the minimal formatter's result (text and change list, not an
error); on a reported formatting error or any other invocation failure it
returns the original text with the recorded error message; and whether a
conversion run writes output never depends on the formatter environment,
so a formatting failure never aborts the conversion. -/
theorem C6_formatter_failure_policy :
    (∀ src, (format_with_black .toolMissing src).code = (format_code src).1 ∧
      (format_with_black .toolMissing src).changes = (format_code src).2) ∧
    (∀ src m, (format_with_black (.procError m) src).code = src ∧
      (format_with_black (.procError m) src).changes = ["black formatting failed: " ++ m]) ∧
    (∀ src m, (format_with_black (.otherFailure m) src).code = src ∧
      (format_with_black (.otherFailure m) src).changes = ["black formatting error: " ++ m]) ∧
    (∀ cells ru env env',
      (convert_ipynb_to_py (some cells) ru true env).isWritten =
        (convert_ipynb_to_py (some cells) ru true env').isWritten) := by
  refine ⟨fun src => ⟨rfl, rfl⟩, fun src m => ⟨rfl, rfl⟩, fun src m => ⟨rfl, rfl⟩, ?_⟩
  intro cells ru env env'
  cases h : assembleCells ru cells with
  | error e => simp [convert_ipynb_to_py, h]
  | ok blob => simp [convert_ipynb_to_py, h, ConvertOutcome.isWritten]

/-! Claim C2. -/

/-- C2 fails on the code: `os.unlink(temp_file_path)` is executed only on
the success path of `format_with_black`, so on the tool-missing,
formatting-error and unexpected-failure exit paths the temporary file is
left on disk.  This theorem evaluates the stage on all four exit paths at
the blob `x = 1`. -/
theorem C2_temp_file_leak :
    (format_with_black .toolMissing "x = 1").tempFileDeleted = false ∧
    (format_with_black (.procError "exited non-zero") "x = 1").tempFileDeleted = false ∧
    (format_with_black (.otherFailure "unexpected") "x = 1").tempFileDeleted = false ∧
    (format_with_black (.runs (fun s => s)) "x = 1").tempFileDeleted = true :=
  ⟨rfl, rfl, rfl, rfl⟩

/-! Claim C7. -/

/-- Counterexample to C7 as stated: for the one-markdown-cell notebook
with source `hello`, the assembled text (under either pruning flag)
carries a leading newline before the cell's block, so it differs from the
claimed rendering — the `"# "`-prefixed lines followed by two newlines
with nothing else added. -/
theorem C7_counterexample :
    assembleCells true exCellsMd = .ok "\n# hello\n\n" ∧
    assembleCells false exCellsMd = .ok "\n# hello\n\n" ∧
    specMarkdownRender exCellsMd = "# hello\n\n" ∧
    ("\n# hello\n\n" : String) ≠ "# hello\n\n" :=
  ⟨rfl, rfl, rfl, by decide⟩

/-- Helper: prefixing every element and joining shifts the prefix onto
the separator. -/
theorem joinSep_map_shift (p sep : String) (l : List String) (hl : l ≠ []) :
    joinSep sep (l.map (fun s => p ++ s)) = p ++ joinSep (sep ++ p) l := by
  induction l with
  | nil => exact absurd rfl hl
  | cons x xs ih =>
    cases xs with
    | nil => simp [joinSep]
    | cons y ys =>
      have ih' := ih (by simp)
      simp only [List.map_cons, joinSep] at ih' ⊢
      rw [ih']
      simp [String.append_assoc]

/-- Helper: the split of a nonempty string has at least one line. -/
theorem splitlinesAux_ne_nil (cs : List Char) (acc : List Char) (h : acc ≠ []) :
    splitlinesAux cs acc ≠ [] := by
  induction cs generalizing acc with
  | nil =>
    simp only [splitlinesAux]
    rw [if_neg (by simpa using h)]
    simp
  | cons c cs ih =>
    simp only [splitlinesAux]
    by_cases hc : c = '\n'
    · simp [hc]
    · rw [if_neg hc]
      exact ih _ (by simp)

/-- Helper: a nonempty cell source splits into a nonempty line list. -/
theorem splitlines_ne_nil (s : String) (h : s ≠ "") : splitlines s ≠ [] := by
  rw [splitlines]
  cases hs : s.data with
  | nil =>
    exfalso
    apply h
    cases s with
    | mk d => simp only [String.data] at hs; subst hs; rfl
  | cons c cs =>
    simp only [splitlinesAux]
    by_cases hc : c = '\n'
    · simp [hc]
    · rw [if_neg hc]
      exact splitlinesAux_ne_nil cs [c] (by simp)

/-- C7 amended: for a notebook of markdown cells with nonempty sources,
and under either pruning flag, the assembled text is the concatenation,
in order, of one block per cell consisting of a single leading newline,
the cell's lines each prefixed with `"# "` and joined with newlines, and
two trailing newlines. -/
theorem C7_markdown_assembly (cells : List Cell) (ru : Bool)
    (h1 : ∀ c ∈ cells, c.cellType = .markdown)
    (h2 : ∀ c ∈ cells, c.source ≠ "") :
    assembleCells ru cells = .ok (concatStrs (cells.map (fun c =>
      "\n" ++ joinSep "\n" ((splitlines c.source).map (fun l => "# " ++ l)) ++ "\n\n"))) := by
  induction cells with
  | nil => rfl
  | cons c rest ih =>
    have hc1 := h1 c (List.mem_cons_self c rest)
    have hc2 := h2 c (List.mem_cons_self c rest)
    have ih' := ih (fun a ha => h1 a (List.mem_cons_of_mem _ ha))
      (fun a ha => h2 a (List.mem_cons_of_mem _ ha))
    have hb : commentMarkdown c.source =
        "\n" ++ joinSep "\n" ((splitlines c.source).map (fun l => "# " ++ l)) ++ "\n\n" := by
      rw [commentMarkdown, joinSep_map_shift "# " "\n" _ (splitlines_ne_nil c.source hc2)]
      rfl
    simp only [assembleCells, hc1, ih', Except.map, List.map_cons, concatStrs]
    rw [hb]

/-- Witness for the amended C7 at the one-cell notebook with markdown
source `hello`. -/
theorem C7_markdown_assembly_witness :
    ((∀ c ∈ exCellsMd, c.cellType = .markdown) ∧ (∀ c ∈ exCellsMd, c.source ≠ "")) ∧
    assembleCells true exCellsMd = .ok (concatStrs (exCellsMd.map (fun c =>
      "\n" ++ joinSep "\n" ((splitlines c.source).map (fun l => "# " ++ l)) ++ "\n\n"))) :=
  ⟨⟨by decide, by decide⟩, C7_markdown_assembly exCellsMd true (by decide) (by decide)⟩

/-! Claim C8. -/

/-- Counterexample to C8 as stated: for the input `def f(): pass`,
blank line, `x`, the output has two blank lines immediately after the
definition line (the unconditional inserted blank plus the pass-through
of the existing one), so there is not exactly one; and for the one-line
input `def f(): pass` a blank line is inserted after the definition while
the recorded change list stays empty, so not every inserted blank line is
recorded. -/
theorem C8_counterexample :
    formattedLines "def f(): pass\n\nx" = ["def f(): pass", "", "", "x"] ∧
    isDefLine "def f(): pass" = true ∧
    formattedLines "def f(): pass" = ["def f(): pass", ""] ∧
    formatChanges "def f(): pass" = [] :=
  ⟨rfl, rfl, rfl, rfl⟩

/-- Helper: indexing into a one-element list. -/
theorem singleton_getElem? {α : Type} {a s : α} {k : Nat} (h : ([a] : List α)[k]? = some s) :
    k = 0 ∧ a = s := by
  cases k with
  | zero => simp at h; exact ⟨rfl, h⟩
  | succ k => simp at h

/-- Helper: extending an emitted list preserves the blank-placement
property at old positions; only the new positions need checking. -/
theorem blanksOk_append_of (fl tail : List String) (h : BlanksOk fl)
    (htail : ∀ j s, (fl ++ tail)[j]? = some s → fl.length ≤ j → isDefLine s = true →
      (fl ++ tail)[j + 1]? = some "" ∧
        (j = 0 ∨ ∃ p, (fl ++ tail)[j - 1]? = some p ∧ stripEmpty p = true)) :
    BlanksOk (fl ++ tail) := by
  intro j s hj hdef
  by_cases hlt : j < fl.length
  · have hj' : fl[j]? = some s := by
      rw [List.getElem?_append_left hlt] at hj; exact hj
    obtain ⟨ha, hb⟩ := h j s hj' hdef
    have hj1 : j + 1 < fl.length := by
      rcases List.getElem?_eq_some_iff.1 ha with ⟨hlt1, _⟩
      exact hlt1
    refine ⟨by rw [List.getElem?_append_left hj1]; exact ha, ?_⟩
    rcases hb with h0 | ⟨p, hp, hps⟩
    · exact Or.inl h0
    · refine Or.inr ⟨p, ?_, hps⟩
      rw [List.getElem?_append_left (lt_of_le_of_lt (Nat.sub_le _ _) hlt)]
      exact hp
  · exact htail j s hj (Nat.le_of_not_lt hlt) hdef

/-- Helper: appending one non-definition line preserves the
blank-placement property. -/
theorem blanksOk_append_nondef (fl : List String) (l : String)
    (h : BlanksOk fl) (hl : isDefLine l = false) : BlanksOk (fl ++ [l]) := by
  apply blanksOk_append_of fl [l] h
  intro j s hj hge hdef
  rw [List.getElem?_append_right hge] at hj
  obtain ⟨_, hls⟩ := singleton_getElem? hj
  rw [← hls] at hdef
  rw [hl] at hdef
  cases hdef

/-- Helper: appending a definition line and its unconditional
after-blank preserves the blank-placement property when the emitted list
is empty or ends blank. -/
theorem blanksOk_append_def_prevEmpty (fl : List String) (l : String)
    (h : BlanksOk fl) (_hdef : isDefLine l = true) (hprev : LastBlankOk fl) :
    BlanksOk (fl ++ [l, ""]) := by
  apply blanksOk_append_of fl [l, ""] h
  intro j s hj hge hdefs
  rw [List.getElem?_append_right hge] at hj
  cases hk : j - fl.length with
  | zero =>
    rw [hk] at hj
    simp only [List.getElem?_cons_zero, Option.some.injEq] at hj
    have hj0 : j = fl.length := by omega
    constructor
    · rw [List.getElem?_append_right (by omega : fl.length ≤ j + 1)]
      have : j + 1 - fl.length = 1 := by omega
      rw [this]
      rfl
    · rcases hprev with hnil | ⟨p, hp, hps⟩
      · left
        rw [hj0, hnil]
        rfl
      · right
        have hlen : fl ≠ [] := by
          intro h0
          rw [h0] at hp
          cases hp
        have hlen1 : 0 < fl.length := List.length_pos.2 hlen
        refine ⟨p, ?_, hps⟩
        rw [List.getElem?_append_left (by omega : j - 1 < fl.length)]
        rw [List.getLast?_eq_getElem?] at hp
        have : j - 1 = fl.length - 1 := by omega
        rw [this]
        exact hp
  | succ k =>
    rw [hk] at hj
    cases k with
    | zero =>
      simp only [List.getElem?_cons_succ, List.getElem?_cons_zero, Option.some.injEq] at hj
      rw [← hj] at hdefs
      cases hdefs
    | succ k =>
      simp at hj

/-- Helper: appending an inserted blank, a definition line and its
after-blank preserves the blank-placement property. -/
theorem blanksOk_append_def_ins (fl : List String) (l : String)
    (h : BlanksOk fl) (_hdef : isDefLine l = true) :
    BlanksOk (fl ++ ["", l, ""]) := by
  apply blanksOk_append_of fl ["", l, ""] h
  intro j s hj hge hdefs
  rw [List.getElem?_append_right hge] at hj
  cases hk : j - fl.length with
  | zero =>
    rw [hk] at hj
    simp only [List.getElem?_cons_zero, Option.some.injEq] at hj
    rw [← hj] at hdefs
    cases hdefs
  | succ k =>
    rw [hk] at hj
    cases k with
    | zero =>
      simp only [List.getElem?_cons_succ, List.getElem?_cons_zero, Option.some.injEq] at hj
      have hj1 : j = fl.length + 1 := by omega
      constructor
      · rw [List.getElem?_append_right (by omega : fl.length ≤ j + 1)]
        have : j + 1 - fl.length = 2 := by omega
        rw [this]
        rfl
      · right
        refine ⟨"", ?_, by decide⟩
        rw [List.getElem?_append_right (by omega : fl.length ≤ j - 1)]
        have : j - 1 - fl.length = 0 := by omega
        rw [this]
        rfl
    | succ k =>
      cases k with
      | zero =>
        simp only [List.getElem?_cons_succ, List.getElem?_cons_zero, Option.some.injEq] at hj
        rw [← hj] at hdefs
        cases hdefs
      | succ k =>
        simp at hj

/-- Helper: the formatter loop maintains the blank-placement property of
the emitted lines, the ends-blank property tracked by `prev_line_empty`,
and the shape of the recorded change list. -/
theorem formatCodeLoop_inv (lines : List String) (i : Nat) (prevEmpty : Bool)
    (fl ch : List String) (hb : BlanksOk fl)
    (hp : prevEmpty = true → LastBlankOk fl) (hc : ChangesOk ch) :
    BlanksOk (formatCodeLoop lines i prevEmpty fl ch).1 ∧
      ChangesOk (formatCodeLoop lines i prevEmpty fl ch).2 := by
  induction lines generalizing i prevEmpty fl ch with
  | nil => exact ⟨hb, hc⟩
  | cons line rest ih =>
    simp only [formatCodeLoop]
    by_cases hdef : isDefLine line
    · by_cases hcond : (!prevEmpty && !fl.isEmpty) = true
      · rw [if_pos hdef, if_pos hcond]
        apply ih
        · exact blanksOk_append_def_ins fl line hb hdef
        · intro _
          right
          refine ⟨"", ?_, by decide⟩
          simp [List.getLast?_append]
        · intro m hm
          rcases List.mem_append.1 hm with h1 | h2
          · exact hc m h1
          · rw [List.mem_singleton.1 h2]
            exact ⟨i + 1, by omega, rfl⟩
      · rw [if_pos hdef, if_neg hcond]
        apply ih
        · apply blanksOk_append_def_prevEmpty fl line hb hdef
          cases prevEmpty with
          | true => exact hp rfl
          | false =>
            left
            cases hem : fl.isEmpty with
            | true => exact List.isEmpty_iff.1 hem
            | false =>
              exfalso
              apply hcond
              simp [hem]
        · intro _
          right
          refine ⟨"", ?_, by decide⟩
          simp [List.getLast?_append]
        · exact hc
    · rw [if_neg hdef]
      apply ih
      · exact blanksOk_append_nondef fl line hb (Bool.eq_false_iff.2 hdef)
      · intro hstrip
        right
        exact ⟨line, List.getLast?_concat fl, hstrip⟩
      · exact hc

/-- Helper: every line emitted by the formatter loop is an inserted
blank or satisfies the property shared by the input lines. -/
theorem formatCodeLoop_emitted (P : String → Prop) (lines : List String) (i : Nat)
    (prevEmpty : Bool) (fl ch : List String)
    (hfl : ∀ s ∈ fl, s = "" ∨ P s) (hlines : ∀ l ∈ lines, P l) :
    ∀ s ∈ (formatCodeLoop lines i prevEmpty fl ch).1, s = "" ∨ P s := by
  induction lines generalizing i prevEmpty fl ch with
  | nil => exact hfl
  | cons line rest ih =>
    have hline := hlines line (List.mem_cons_self _ _)
    have hrest : ∀ l ∈ rest, P l := fun l hl => hlines l (List.mem_cons_of_mem _ hl)
    simp only [formatCodeLoop]
    by_cases hdef : isDefLine line
    · by_cases hcond : (!prevEmpty && !fl.isEmpty) = true
      · rw [if_pos hdef, if_pos hcond]
        apply ih _ _ _ _ _ hrest
        intro s hs
        rcases List.mem_append.1 hs with h1 | h2
        · exact hfl s h1
        · simp only [List.mem_cons, List.not_mem_nil, or_false] at h2
          rcases h2 with rfl | rfl | rfl
          · exact Or.inl rfl
          · exact Or.inr hline
          · exact Or.inl rfl
      · rw [if_pos hdef, if_neg hcond]
        apply ih _ _ _ _ _ hrest
        intro s hs
        rcases List.mem_append.1 hs with h1 | h2
        · exact hfl s h1
        · simp only [List.mem_cons, List.not_mem_nil, or_false] at h2
          rcases h2 with rfl | rfl
          · exact Or.inr hline
          · exact Or.inl rfl
    · rw [if_neg hdef]
      apply ih _ _ _ _ _ hrest
      intro s hs
      rcases List.mem_append.1 hs with h1 | h2
      · exact hfl s h1
      · rw [List.mem_singleton.1 h2]
        exact Or.inr hline

/-- C8 amended: the minimal formatter guarantees at least one blank line
around definitions, not exactly one — in its output every line beginning
with `def ` or `class ` is immediately followed by an inserted blank line
and, unless it is the first output line, immediately preceded by a line
that is blank after stripping; every other output line is an inserted
blank or one of the input lines passed through unchanged; and the
recorded changes are exactly shaped as before-insertion messages with a
1-based line number — the unconditional after-blank insertions are not
recorded. -/
theorem C8_minimal_formatter (source : String) :
    (∀ j s, (formattedLines source)[j]? = some s → isDefLine s = true →
      (formattedLines source)[j + 1]? = some "" ∧
        (j = 0 ∨ ∃ p, (formattedLines source)[j - 1]? = some p ∧ stripEmpty p = true)) ∧
    (∀ m ∈ formatChanges source, ∃ k, 1 ≤ k ∧ m = chMsg k) ∧
    (∀ s ∈ formattedLines source, s = "" ∨ s ∈ splitlines source) := by
  have hinv := formatCodeLoop_inv (splitlines source) 0 true [] []
    (by intro j s h _; simp at h) (fun _ => Or.inl rfl) (by intro m hm; simp at hm)
  refine ⟨hinv.1, hinv.2, ?_⟩
  exact formatCodeLoop_emitted (fun s => s ∈ splitlines source) (splitlines source) 0 true [] []
    (by intro s hs; simp at hs) (fun l hl => hl)

/-- Witness for the amended C8 at the input `x = 1` then
`def f(): pass`: the definition line in the output is followed by a blank
line and preceded by a blank line, and the single recorded change is the
before-insertion message for line 2. -/
theorem C8_minimal_formatter_witness :
    ((formattedLines "x = 1\ndef f(): pass")[2]? = some "def f(): pass" ∧
      isDefLine "def f(): pass" = true ∧
      formatChanges "x = 1\ndef f(): pass" = [chMsg 2]) ∧
    ((formattedLines "x = 1\ndef f(): pass")[3]? = some "" ∧
      (2 = 0 ∨ ∃ p, (formattedLines "x = 1\ndef f(): pass")[1]? = some p ∧
        stripEmpty p = true)) :=
  ⟨⟨by decide, by decide, by decide⟩,
   (C8_minimal_formatter "x = 1\ndef f(): pass").1 2 "def f(): pass" (by decide) (by decide)⟩

end IpynbToPy
